import Mathlib

/-!
Verification development for the troposphere class generator
(`scripts/gen.py`).  The generator reads an AWS resource-specification
catalog, partitions it into per-service files, and emits Python class
definitions in dependency order, applying per-file override documents for
required flags and validators.

The Python source is shallowly embedded below.  Dictionaries become
association lists (`List (String × _)`); `sorted(...)` becomes insertion
sort by key; exceptions become `Except`/`Option` results; `print` output
becomes accumulated `List String`/`List Entry` values.  Recursion over the
dependency tree is indexed by an explicit fuel parameter so that every
function is structurally recursive and executable; a fuel-exhaustion
result corresponds to a Python run that never returns (unbounded
recursion), and any sufficiently large fuel reproduces a terminating run.
-/

/-- A field descriptor from the catalog: the keys `PrimitiveType`, `Type`,
`ItemType`, `PrimitiveItemType` (each possibly absent) and the `Required`
flag.  `Type_` stands for the JSON key `Type`. -/
structure FieldDesc where
  PrimitiveType : Option String
  Type_ : Option String
  ItemType : Option String
  PrimitiveItemType : Option String
  Required : Bool
deriving DecidableEq

/-- The field table of one definition: field name to field descriptor, in
dictionary iteration order. -/
abbrev Props := List (String × FieldDesc)

/-- Errors of the embedded generator: a Python `KeyError` (with the missing
key), or exhaustion of the recursion fuel (a Python run that never
terminates). -/
inductive BErr where
  | fuelExhausted
  | keyError (key : String)
deriving DecidableEq

/-- Python dictionary lookup `d[k]` (first binding wins, as keys of a
dictionary are unique). -/
def dictGet (k : String) : List (String × α) → Option α
  | [] => none
  | (k', v) :: rest => if k' = k then some v else dictGet k rest

/-- Lexicographic code-point comparison of character lists: Python's string
`<=`. -/
def strLeB : List Char → List Char → Bool
  | [], _ => true
  | _ :: _, [] => false
  | a :: as, b :: bs => if a = b then strLeB as bs else decide (a < b)

/-- Python string `<=` as a relation on `String`. -/
abbrev pyLe (a b : String) : Prop := strLeB a.data b.data = true

/-- Python key comparison on dictionary bindings. -/
abbrev pyKeyLe {α : Type _} (a b : String × α) : Prop := pyLe a.1 b.1

instance : IsTotal String pyLe := by
  constructor
  intro a b
  show strLeB a.data b.data = true ∨ strLeB b.data a.data = true
  generalize a.data = as
  generalize b.data = bs
  induction as generalizing bs with
  | nil => left; rfl
  | cons a as ih =>
    cases bs with
    | nil => right; rfl
    | cons b bs' =>
      by_cases hab : a = b
      · subst hab
        simpa [strLeB] using ih bs'
      · rcases lt_or_gt_of_ne hab with h | h
        · left; simp [strLeB, hab, h]
        · right; simp [strLeB, Ne.symm hab, h]

instance : IsTrans String pyLe := by
  constructor
  intro a b c
  show strLeB a.data b.data = true → strLeB b.data c.data = true →
    strLeB a.data c.data = true
  generalize a.data = as
  generalize b.data = bs
  generalize c.data = cs
  induction as generalizing bs cs with
  | nil => intros; rfl
  | cons a as ih =>
    intro h1 h2
    cases bs with
    | nil => simp [strLeB] at h1
    | cons b bs' =>
      cases cs with
      | nil => simp [strLeB] at h2
      | cons c cs' =>
        by_cases hab : a = b <;> by_cases hbc : b = c
        · subst hbc
          subst hab
          simp only [strLeB, if_pos rfl] at h1 h2 ⊢
          exact ih bs' cs' h1 h2
        · subst hab
          simp only [strLeB, if_pos rfl, if_neg hbc, decide_eq_true_eq] at h1 h2 ⊢
          exact h2
        · subst hbc
          simp only [strLeB, if_neg hab, decide_eq_true_eq] at h1 h2 ⊢
          exact h1
        · simp only [strLeB, if_neg hab, if_neg hbc, decide_eq_true_eq] at h1 h2
          have hac : a < c := lt_trans h1 h2
          have hne : a ≠ c := ne_of_lt hac
          simp [strLeB, hne, hac]

instance : IsTotal (String × α) pyKeyLe :=
  ⟨fun a b => total_of pyLe a.1 b.1⟩

instance : IsTrans (String × α) pyKeyLe :=
  ⟨fun _ _ _ h1 h2 => trans_of pyLe h1 h2⟩

/-- Python `sorted` on a list of strings. -/
def sortStrings (l : List String) : List String :=
  List.insertionSort pyLe l

/-- Python `sorted(d.items())` on a dictionary: stable sort of the bindings
by key (keys are unique, so the values never take part in the comparison). -/
def sortByKey (l : List (String × α)) : List (String × α) :=
  List.insertionSort pyKeyLe l

/-- Python `s.lstrip(chars)`: remove the longest leading run of characters
each of which occurs in `chars`.  (This is a character-set strip, not the
removal of the literal string `chars`.) -/
def pyLstrip (s chars : String) : String :=
  ⟨s.data.dropWhile (fun c => chars.data.elem c)⟩

/-- Python rendering of a boolean (`True` / `False`). -/
def pyBool : Bool → String
  | true => "True"
  | false => "False"

/-- Python `"%s" % x` where `x` is a string or `None`. -/
def pyOptStr : Option String → String
  | none => "None"
  | some s => s

/-- Whether a character list starts with another. -/
def listStarts : List Char → List Char → Bool
  | [], _ => true
  | _ :: _, [] => false
  | a :: as, b :: bs => a = b && listStarts as bs

/-- Whether a character list occurs contiguously inside another. -/
def listHasInfix (sub : List Char) : List Char → Bool
  | [] => listStarts sub []
  | b :: rest => listStarts sub (b :: rest) || listHasInfix sub rest

/-- Whether `sub` occurs inside `s` (Python `sub in s` for strings). -/
def strContains (s sub : String) : Bool :=
  listHasInfix sub.data s.data

/-- The `map_type` table of `gen.py` (Python 2 target). -/
def map_type : List (String × String) :=
  [("Boolean", "boolean"),
   ("Double", "float"),
   ("Integer", "integer"),
   ("Json", "dict"),
   ("Long", "integer"),
   ("String", "basestring"),
   ("Timestamp", "basestring")]

/-- Module-level `get_required(value)`: the catalog `Required` flag. -/
def get_required (value : FieldDesc) : Bool :=
  value.Required

/-- `get_type(value)` of `gen.py`.  `map_type.get(x, x)` falls back to the
raw name; in the `List`/`PrimitiveItemType` branch the lookup has no
fallback, so an unknown primitive item type renders as the Python `None`
(`pyOptStr`).  A descriptor with neither `PrimitiveType` nor `Type`, or a
`List` with neither `ItemType` nor `PrimitiveItemType`, raises `KeyError`. -/
def get_type (value : FieldDesc) : Except BErr String :=
  match value.PrimitiveType with
  | some pt => .ok ((dictGet pt map_type).getD pt)
  | none =>
    match value.Type_ with
    | none => .error (.keyError "Type")
    | some t =>
      if t = "List" then
        match value.ItemType with
        | some it => .ok ("[" ++ it ++ "]")
        | none =>
          match value.PrimitiveItemType with
          | none => .error (.keyError "PrimitiveItemType")
          | some pit => .ok ("[" ++ pyOptStr (dictGet pit map_type) ++ "]")
      else if t = "Map" then .ok "dict"
      else .ok t

/-- `File._get_property_type(value)`: the non-primitive type referenced by a
field descriptor (`none` for primitive scalars, primitive lists and maps).
Raises `KeyError` when the descriptor has neither `PrimitiveType` nor
`Type`. -/
def get_property_type (value : FieldDesc) : Except BErr (Option String) :=
  if value.PrimitiveType.isSome then .ok none
  else
    match value.Type_ with
    | none => .error (.keyError "Type")
    | some t =>
      if t = "List" then .ok value.ItemType
      else if t = "Map" then .ok none
      else .ok (some t)

/-- The collection loop of `File._get_type_list`: property types of the
fields in iteration order (duplicates kept). -/
def collectTypes : Props → Except BErr (List String)
  | [] => .ok []
  | (_, v) :: rest =>
    match get_property_type v with
    | .error e => .error e
    | .ok none => collectTypes rest
    | .ok (some t) =>
      match collectTypes rest with
      | .error e => .error e
      | .ok l => .ok (t :: l)

/-- `File._get_type_list(props)`: the sorted list of non-primitive types
used by an object. -/
def get_type_list (props : Props) : Except BErr (List String) :=
  match collectTypes props with
  | .error e => .error e
  | .ok l => .ok (sortStrings l)

/-- One per-field override entry: the optional `required` and `validator`
keys (absent key = `none`). -/
structure FieldOverride where
  required : Option Bool
  validator : Option String
deriving DecidableEq

/-- One per-class override entry: the optional class-level `validator` key
and the per-field entries.  (Catalog field names are CamelCase resource
property names, so they never collide with the literal key `validator`.) -/
structure ClassEntry where
  validator : Option String
  fields : List (String × FieldOverride)
deriving DecidableEq

/-- A loaded override document: the optional `header` and `classes` keys. -/
structure OverrideDoc where
  header : Option String
  classes : Option (List (String × ClassEntry))
deriving DecidableEq

/-- The `self.override` attribute of an `Override` object: `none` stands for
the falsy empty dictionary obtained when the YAML file is missing, `some d`
for a loaded non-empty document. -/
abbrev Override := Option OverrideDoc

/-- `Override.get_header`. -/
def Override.get_header (o : Override) : String :=
  match o with
  | none => ""
  | some d => d.header.getD ""

/-- `Override.get_required`: the overridden required flag for a
(class, property) pair; any missing key yields `None`. -/
def Override.get_required (o : Override) (class_name prop : String) : Option Bool :=
  match o with
  | none => none
  | some d =>
    match d.classes with
    | none => none
    | some cs =>
      match dictGet class_name cs with
      | none => none
      | some ce =>
        match dictGet prop ce.fields with
        | none => none
        | some fe => fe.required

/-- `Override.get_validator`: the per-field validator override, passed
through `lstrip('common/')`; any missing key yields `None`. -/
def Override.get_validator (o : Override) (class_name prop : String) : Option String :=
  match o with
  | none => none
  | some d =>
    match d.classes with
    | none => none
    | some cs =>
      match dictGet class_name cs with
      | none => none
      | some ce =>
        match dictGet prop ce.fields with
        | none => none
        | some fe => fe.validator.map (fun v => pyLstrip v "common/")

/-- `Override.get_class_validator`: the class-level validator override,
passed through `lstrip('common/')`; any missing key yields `None`. -/
def Override.get_class_validator (o : Override) (class_name : String) : Option String :=
  match o with
  | none => none
  | some d =>
    match d.classes with
    | none => none
    | some cs =>
      match dictGet class_name cs with
      | none => none
      | some ce => ce.validator.map (fun v => pyLstrip v "common/")

/-- The `ignore` list of `Override.get_validator_list`. -/
def vlist_ignore : List String := ["dict"]

/-- The `if validator not in ignore and validator not in vlist` append step
of `Override.get_validator_list`. -/
def vlistAdd (vlist : List String) (validator : String) : List String :=
  if validator ∈ vlist_ignore ∨ validator ∈ vlist then vlist else vlist ++ [validator]

/-- First loop of `Override.get_validator_list`: collect class-level
validators. -/
def vlistClassPass (cs : List (String × ClassEntry)) (vlist : List String) : List String :=
  match cs with
  | [] => vlist
  | (_, v) :: rest =>
    match v.validator with
    | some validator => vlistClassPass rest (vlistAdd vlist validator)
    | none => vlistClassPass rest vlist

/-- Inner iteration of the second loop of `Override.get_validator_list`
over the per-field entries of one class. -/
def vlistFieldItems (items : List (String × FieldOverride)) (vlist : List String) : List String :=
  match items with
  | [] => vlist
  | (_, vp) :: rest =>
    match vp.validator with
    | some validator => vlistFieldItems rest (vlistAdd vlist validator)
    | none => vlistFieldItems rest vlist

/-- Second loop of `Override.get_validator_list`.  Iterating `v.items()`
also yields the class-level `validator` binding, whose value is a string:
Python's `'validator' in vp` is then a substring test, and a hit makes the
subsequent `vp['validator']` raise `TypeError`.  The class-level binding is
taken first in each class dictionary. -/
def vlistPropPass (cs : List (String × ClassEntry)) (vlist : List String) :
    Except String (List String) :=
  match cs with
  | [] => .ok vlist
  | (_, v) :: rest =>
    match v.validator with
    | some s =>
      if strContains s "validator" then
        .error "TypeError: string indices must be integers"
      else vlistPropPass rest (vlistFieldItems v.fields vlist)
    | none => vlistPropPass rest (vlistFieldItems v.fields vlist)

/-- `Override.get_validator_list`: the sorted deduplicated validator list.
On a truthy override document the code reads `self.override['classes']`
unguarded, so a document without a `classes` key raises `KeyError`. -/
def Override.get_validator_list (o : Override) : Except String (List String) :=
  match o with
  | none => .ok []
  | some d =>
    match d.classes with
    | none => .error "KeyError: classes"
    | some cs =>
      match vlistPropPass cs (vlistClassPass cs []) with
      | .error e => .error e
      | .ok vlist => .ok (sortStrings vlist)

/-- The `value_type` computed for one field by `output_class`: a field named
`Tags` uses the fixed external type `Tags` without consulting `get_type`;
otherwise `get_type` runs (and may raise); an override validator, when
present, replaces the computed type. -/
def resolved_value_type (override : Override) (class_name key : String)
    (value : FieldDesc) : Except BErr String :=
  match (if key = "Tags" then Except.ok "Tags" else get_type value) with
  | .error e => .error e
  | .ok value_type =>
    match Override.get_validator override class_name key with
    | some custom_validator => .ok custom_validator
    | none => .ok value_type

/-- The `required` value computed for one field by `output_class`: the
override value when set, else the catalog flag. -/
def resolved_required (override : Override) (class_name key : String)
    (value : FieldDesc) : Bool :=
  match Override.get_required override class_name key with
  | none => get_required value
  | some required => required

/-- One rendered `props` entry of `output_class`, with the pycodestyle line
wrap for long names. -/
def field_line (key value_type : String) (required : Bool) : String :=
  if key.length + value_type.length < 55 then
    "        '" ++ key ++ "': (" ++ value_type ++ ", " ++ pyBool required ++ "),"
  else
    "        '" ++ key ++ "':\n            (" ++ value_type ++ ", " ++ pyBool required ++ "),"

/-- The field loop of `output_class` over the sorted field table: the lines
printed before any failure, and the error of the first failing field (its
line and all later ones are never printed). -/
def output_fields (override : Override) (class_name : String) :
    List (String × FieldDesc) → List String × Option BErr
  | [] => ([], none)
  | (key, value) :: rest =>
    match resolved_value_type override class_name key value with
    | .error e => ([], some e)
    | .ok vt =>
      let line := field_line key vt (resolved_required override class_name key value)
      let (ls, e) := output_fields override class_name rest
      (line :: ls, e)

/-- The lines printed by `output_class` before the `props` table: two blank
lines, the `class` line (with the optional mixin and line break), and for a
resource the `resource_type` line and a blank line. -/
def class_header (class_name : String) (override : Override)
    (resource_name : Option String) : List String :=
  let class_validator := (Override.get_class_validator override class_name).getD ""
  let mixin := if class_validator = "" then "" else class_validator ++ ", "
  let linebreak := if mixin.length > 28 then "\n        " else ""
  match resource_name with
  | some rn =>
    ["", "",
     "class " ++ class_name ++ "(" ++ linebreak ++ mixin ++ "AWSObject):",
     "    resource_type = \"" ++ rn ++ "\"",
     ""]
  | none =>
    ["", "",
     "class " ++ class_name ++ "(" ++ linebreak ++ mixin ++ "AWSProperty):"]

/-- `output_class(class_name, properties, override, resource_name)`: the
printed lines together with the error of the first malformed field, if any.
The header and the lines of fields sorted before a failing field are
already printed when the failure occurs; the closing brace is printed only
on success. -/
def output_class (class_name : String) (properties : Props) (override : Override)
    (resource_name : Option String) : List String × Option BErr :=
  let hdr := class_header class_name override resource_name
  let (fieldLines, err) := output_fields override class_name (sortByKey properties)
  match err with
  | some e => (hdr ++ ["    props = \x7b"] ++ fieldLines, some e)
  | none => (hdr ++ ["    props = \x7b"] ++ fieldLines ++ ["    \x7d"], none)

/-- A dependency-tree node (`Node` of `gen.py`). -/
inductive Node : Type where
  | node (name : String) (props : Props) (resource_name : Option String)
      (children : List Node)

/-- The `name` attribute of a `Node`. -/
def Node.name : Node → String
  | .node n _ _ _ => n

/-- The `props` attribute of a `Node`. -/
def Node.props : Node → Props
  | .node _ p _ _ => p

/-- The `resource_name` attribute of a `Node`. -/
def Node.resource_name : Node → Option String
  | .node _ _ r _ => r

/-- The `children` attribute of a `Node`. -/
def Node.children : Node → List Node
  | .node _ _ _ c => c

/-- A per-file/service table of property definitions, keyed by class name. -/
abbrev PropTable := List (String × Props)

/-- The child-building loop of `File.build_tree` over the sorted type list:
`Tag` is skipped, every other name is looked up in the property table
(`KeyError` when absent) and built recursively through `bt`. -/
def build_children (bt : String → Props → Except BErr Node) (tbl : PropTable) :
    List String → Except BErr (List Node)
  | [] => .ok []
  | prop_name :: rest =>
    if prop_name = "Tag" then build_children bt tbl rest
    else
      match dictGet prop_name tbl with
      | none => .error (.keyError prop_name)
      | some ps =>
        match bt prop_name ps with
        | .error e => .error e
        | .ok child =>
          match build_children bt tbl rest with
          | .error e => .error e
          | .ok cs => .ok (child :: cs)

/-- `File.build_tree(name, props, resource_name)` over the property table
`tbl`, with recursion fuel.  The Python code returns the bare node when the
type list is empty, and otherwise builds one child per (sorted) non-`Tag`
referenced type. -/
def build_tree (fuel : Nat) (tbl : PropTable) (name : String) (props : Props)
    (resource_name : Option String) : Except BErr Node :=
  match fuel with
  | 0 => .error .fuelExhausted
  | f+1 =>
    match get_type_list props with
    | .error e => .error e
    | .ok prop_type_list =>
      if prop_type_list.isEmpty then .ok (.node name props resource_name [])
      else
        match build_children (fun p ps => build_tree f tbl p ps none) tbl
            (sortStrings prop_type_list) with
        | .error e => .error e
        | .ok cs => .ok (.node name props resource_name cs)

/-- One emitted definition: the class name, its field table and, for a
resource, its qualified resource-type name. -/
structure Entry where
  name : String
  props : Props
  resource_name : Option String
deriving DecidableEq

/-- The emission state of `File.output_tree`: the shared `seen` record and
the definitions printed so far, both in emission order. -/
structure OutSt where
  seen : List String
  out : List Entry
deriving DecidableEq

/-- `File.output_tree` lifted to a list of trees: depth-first,
children-before-self, consulting and updating the shared `seen` record
before rendering a node.  Fuel bounds the total number of visited nodes;
`output_trees fuel [t] s` with sufficient fuel is `File.output_tree(t, seen)`
run in state `s`. -/
def output_trees (fuel : Nat) (ts : List Node) (s : OutSt) : Option OutSt :=
  match fuel with
  | 0 => none
  | f+1 =>
    match ts with
    | [] => some s
    | t :: rest =>
      match output_trees f t.children s with
      | none => none
      | some s1 =>
        if t.name ∈ s1.seen then output_trees f rest s1
        else
          output_trees f rest
            ⟨s1.seen ++ [t.name], s1.out ++ [⟨t.name, t.props, t.resource_name⟩]⟩

/-- A `File` object: one per-service output file, carrying its property and
resource tables, the resource-type names, and the loaded override
document. -/
structure File where
  filename : String
  properties : PropTable
  resources : PropTable
  resource_names : List (String × String)
  override : Override

/-- The scan of `File._output_tags` over one class table: some class has a
field named `Tags` with no validator override. -/
def has_bare_tags (override : Override) (classes : PropTable) : Bool :=
  (sortByKey classes).any fun cp =>
    (sortByKey cp.2).any fun kv =>
      kv.1 = "Tags" && (Override.get_validator override cp.1 kv.1).isNone

/-- `File._output_tags` as the decision whether the
`from troposphere import Tags` line is printed: the resource classes are
scanned, then the property classes. -/
def File.output_tags (f : File) : Bool :=
  has_bare_tags f.override f.resources || has_bare_tags f.override f.properties

/-- The root loop of `File.output`: for each resource class in sorted order,
build its dependency tree and emit it through the shared state. -/
def output_resources (f : File) (fuel : Nat) :
    List (String × Props) → OutSt → Except BErr OutSt
  | [], s => .ok s
  | (class_name, properties) :: rest, s =>
    match dictGet class_name f.resource_names with
    | none => .error (.keyError class_name)
    | some resource_name =>
      match build_tree fuel f.properties class_name properties (some resource_name) with
      | .error e => .error e
      | .ok t =>
        match output_trees fuel [t] s with
        | none => .error .fuelExhausted
        | some s2 => output_resources f fuel rest s2

/-- The class-emission portion of `File.output` (the banner, import and
header lines precede every class and are independent of it): the ordered
list of emitted definitions of one grouping. -/
def File.output_classes (f : File) (fuel : Nat) : Except BErr (List Entry) :=
  match output_resources f fuel (sortByKey f.resources) ⟨[], []⟩ with
  | .error e => .error e
  | .ok s => .ok s.out

/-- A tree is `Built` over a property table when every node's children are,
in order, exactly the sorted non-`Tag` referenced types of its field table,
with their field tables taken from the property table.  `build_tree`
returns only `Built` trees. -/
inductive Built (tbl : PropTable) : Node → Prop where
  | intro (name : String) (props : Props) (rn : Option String)
      (children : List Node) (l : List String)
      (hl : get_type_list props = .ok l)
      (hnames : children.map Node.name = (sortStrings l).filter (fun x => x ≠ "Tag"))
      (hprops : ∀ c ∈ children, dictGet c.name tbl = some c.props)
      (hrec : ∀ c ∈ children, Built tbl c) :
      Built tbl (.node name props rn children)

/-- Dependency safety of an emitted list, built up entry by entry: each
appended entry references (as non-`Tag` non-primitive types) only names
already present. -/
inductive DepSafe : List Entry → Prop where
  | nil : DepSafe []
  | snoc (out : List Entry) (e : Entry)
      (hout : DepSafe out)
      (hdeps : ∀ l r, get_type_list e.props = .ok l → r ∈ l → r ≠ "Tag" →
        r ∈ out.map Entry.name) :
      DepSafe (out ++ [e])

/-- Subtree relation on dependency trees. -/
inductive SubNode : Node → Node → Prop where
  | refl (t : Node) : SubNode t t
  | step (n c t : Node) : SubNode n c → c ∈ t.children → SubNode n t

/-- Transitive reference relation of a field table through a property
table: the names reached by `build_tree` from `props`. -/
inductive Reaches (tbl : PropTable) : Props → String → Prop where
  | direct (props : Props) (l : List String) (r : String) :
      get_type_list props = .ok l → r ∈ l → r ≠ "Tag" → Reaches tbl props r
  | step (props : Props) (l : List String) (r : String) (ps : Props) (r' : String) :
      get_type_list props = .ok l → r ∈ l → r ≠ "Tag" →
      dictGet r tbl = some ps → Reaches tbl ps r' → Reaches tbl props r'

/-- A malformed field descriptor: neither `PrimitiveType` nor `Type`, or a
`List` with neither `ItemType` nor `PrimitiveItemType`. -/
def Malformed (v : FieldDesc) : Prop :=
  v.PrimitiveType = none ∧
    (v.Type_ = none ∨ (v.Type_ = some "List" ∧ v.ItemType = none ∧ v.PrimitiveItemType = none))

/-- Decidable check that every non-`Tag` non-primitive reference of a field
table is present in a property table. -/
def allRefsPresent (tbl : PropTable) (props : Props) : Bool :=
  match get_type_list props with
  | .error _ => false
  | .ok l => l.all fun r => r = "Tag" || (dictGet r tbl).isSome

/-- Rank bound for a root field table: its non-`Tag` references are present
in the table and of rank below `b`. -/
def refsBelowB (tbl : PropTable) (rk : String → Nat) (props : Props) (b : Nat) : Bool :=
  match get_type_list props with
  | .error _ => false
  | .ok l =>
    l.all fun r => r = "Tag" || ((dictGet r tbl).isSome && decide (rk r < b))

/-- A rank certificate for a property table: every entry's non-`Tag`
references are present and of strictly smaller rank (so the reference
graph restricted to the table is acyclic). -/
def rankOkB (tbl : PropTable) (rk : String → Nat) : Bool :=
  tbl.all fun p => refsBelowB tbl rk p.2 (rk p.1)

/-- A field descriptor declaring only a `PrimitiveType`. -/
def primField (name : String) (req : Bool) : FieldDesc :=
  ⟨some name, none, none, none, req⟩

/-- A field descriptor declaring a non-primitive `Type`. -/
def typeField (name : String) (req : Bool) : FieldDesc :=
  ⟨none, some name, none, none, req⟩

/-- A field descriptor declaring a `List` of a primitive item type. -/
def primListField (name : String) (req : Bool) : FieldDesc :=
  ⟨none, some "List", none, some name, req⟩

/-- A field descriptor with none of the type keys (malformed). -/
def emptyField : FieldDesc :=
  ⟨none, none, none, none, true⟩

/-- Example property `Bar` with one required primitive `Integer` field. -/
def exBarProps : Props := [("X", primField "Integer" true)]

/-- Example resource `Baz` with one optional field of type `Bar`. -/
def exBazProps : Props := [("Y", typeField "Bar" false)]

/-- Example grouping: resource `Baz` referencing property `Bar`. -/
def exFile : File :=
  ⟨"foo", [("Bar", exBarProps)], [("Baz", exBazProps)], [("Baz", "Foo::Baz")], none⟩

/-- Example override document: a field-level validator `check_foo` for
`Foo.Bar`. -/
def doc4 : OverrideDoc :=
  ⟨none, some [("Foo", ⟨none, [("Bar", ⟨none, some "check_foo"⟩)]⟩)]⟩

/-- Example override document: a class-level validator `common/monitor` for
`Monitor`. -/
def doc4c : OverrideDoc :=
  ⟨none, some [("Monitor", ⟨some "common/monitor", []⟩)]⟩

/-- Example override document: `required: true` for field `Y` of `Baz`. -/
def doc3 : OverrideDoc :=
  ⟨none, some [("Baz", ⟨none, [("Y", ⟨some true, none⟩)]⟩)]⟩

/-- Example override document with a header and no `classes` key. -/
def doc7 : OverrideDoc :=
  ⟨some "custom header", none⟩

/-- Example malformed `List` descriptor carrying an unknown primitive item
type. -/
def desc5 : FieldDesc := primListField "Funky" true

/-- Example field table whose field `B` is malformed. -/
def props8 : Props := [("A", primField "Integer" true), ("B", emptyField)]

/-- Field table of the cyclic example: `A` references `B`. -/
def cycA : Props := [("P", typeField "B" true)]

/-- Field table of the cyclic example: `B` references `A`. -/
def cycB : Props := [("P", typeField "A" true)]

/-- A cyclic property table: `A` and `B` reference each other, and both are
present. -/
def cycTbl : PropTable := [("A", cycA), ("B", cycB)]

/-- Example field table with a bare `Tags` field (a list of `Tag`). -/
def tagProps : Props := [("Tags", ⟨none, some "List", some "Tag", none, false⟩)]

/-- Example grouping whose resource has a bare `Tags` field. -/
def exTagFile : File :=
  ⟨"bar", [], [("Baz", tagProps)], [("Baz", "Foo::Baz")], none⟩

/-- Example override document giving `Baz.Tags` a validator. -/
def docTags : OverrideDoc :=
  ⟨none, some [("Baz", ⟨none, [("Tags", ⟨none, some "validate_tags"⟩)]⟩)]⟩

/-- Example grouping whose resource's `Tags` field has a validator
override. -/
def exTagFileOv : File :=
  ⟨"bar", [], [("Baz", tagProps)], [("Baz", "Foo::Baz")], some docTags⟩

/-- Rank function for the acyclic example table. -/
def exRank (s : String) : Nat :=
  if s = "Bar" then 0 else 1

/-- The dependency tree built for the acyclic example. -/
def exTree : Node :=
  .node "Baz" exBazProps none [.node "Bar" exBarProps none []]

/-- The emission order of the example grouping: `Bar` before `Baz`. -/
def exOut : List Entry :=
  [⟨"Bar", exBarProps, none⟩, ⟨"Baz", exBazProps, some "Foo::Baz"⟩]

/-- C3: the rendered required value of a field equals an explicitly set
override required flag (true or false) even when the catalog disagrees,
and equals the catalog's own `Required` flag when no override flag is
set. -/
theorem override_required_precedence (o : Override) (class_name key : String)
    (value : FieldDesc) :
    (∀ d cs ce fe b, o = some d → d.classes = some cs →
      dictGet class_name cs = some ce → dictGet key ce.fields = some fe →
      fe.required = some b → resolved_required o class_name key value = b)
    ∧ (Override.get_required o class_name key = none →
      resolved_required o class_name key value = value.Required) := by
  constructor
  · rintro d cs ce fe b rfl h1 h2 h3 h4
    simp [resolved_required, Override.get_required, h1, h2, h3, h4]
  · intro h
    simp [resolved_required, h, get_required]

/-- Witness for C3 at concrete inputs: the override `required: true` beats
the catalog's `false`, and with no override the catalog's `false` stands. -/
theorem override_required_precedence_w :
    resolved_required (some doc3) "Baz" "Y" (typeField "Bar" false) = true
    ∧ resolved_required none "Baz" "Y" (typeField "Bar" false) = false := by
  constructor
  · exact (override_required_precedence (some doc3) "Baz" "Y" (typeField "Bar" false)).1
      doc3 _ _ _ true rfl rfl rfl rfl rfl
  · exact (override_required_precedence none "Baz" "Y" (typeField "Bar" false)).2 rfl

/-- C4: `lstrip('common/')` is a character-set strip, not a prefix strip:
a stored validator name that does not start with `common/` is still
mutated (`check_foo` comes back as `heck_foo`), and even a name that does
start with `common/` can lose more than the prefix (`common/monitor` comes
back as `itor`).  This contradicts the intended prefix-stripping spelled
out by the guarded `startswith('common/')` use in `_output_validators`. -/
theorem validator_lstrip_divergence :
    Override.get_validator (some doc4) "Foo" "Bar" = some "heck_foo"
    ∧ Override.get_validator (some doc4) "Foo" "Bar" ≠ some "check_foo"
    ∧ Override.get_class_validator (some doc4c) "Monitor" = some "itor"
    ∧ Override.get_class_validator (some doc4c) "Monitor" ≠ some "monitor" := by
  refine ⟨rfl, ?_, rfl, ?_⟩
  · intro h
    rw [show Override.get_validator (some doc4) "Foo" "Bar" = some "heck_foo" from rfl] at h
    simp at h
  · intro h
    rw [show Override.get_class_validator (some doc4c) "Monitor" = some "itor" from rfl] at h
    simp at h

/-- C5 counterexample: a `List` descriptor with the unknown primitive item
type `Funky` renders as `[None]` (the Python `None` formatted into the
brackets), not as the pass-through `[Funky]`. -/
theorem unknown_prim_item_counterexample :
    get_type desc5 = .ok "[None]" ∧ "[None]" ≠ "[Funky]" := by
  exact ⟨rfl, by decide⟩

/-- C5 (amended): a scalar `PrimitiveType` name absent from `map_type` is
passed through verbatim; a `List` whose `PrimitiveItemType` is absent from
`map_type` renders as `[None]` instead of the wrapped name. -/
theorem unknown_prim_passthrough (value : FieldDesc) (name : String) :
    (value.PrimitiveType = some name → dictGet name map_type = none →
      get_type value = .ok name)
    ∧ (value.PrimitiveType = none → value.Type_ = some "List" →
      value.ItemType = none → value.PrimitiveItemType = some name →
      dictGet name map_type = none → get_type value = .ok "[None]") := by
  constructor
  · intro h1 h2
    simp [get_type, h1, h2]
  · intro h1 h2 h3 h4 h5
    simp [get_type, h1, h2, h3, h4, h5, pyOptStr]

/-- Witness for C5's amended claim at the concrete unknown name `Funky`. -/
theorem unknown_prim_passthrough_w :
    get_type (primField "Funky" true) = .ok "Funky" ∧ get_type desc5 = .ok "[None]" :=
  ⟨(unknown_prim_passthrough (primField "Funky" true) "Funky").1 rfl rfl,
   (unknown_prim_passthrough desc5 "Funky").2 rfl rfl rfl rfl rfl⟩

/-- C7 counterexample: on a non-empty override document without a `classes`
mapping, `get_validator_list` raises `KeyError` instead of returning an
empty result. -/
theorem validator_list_missing_classes_raises :
    Override.get_validator_list (some doc7) = .error "KeyError: classes" := rfl

/-- C7 (amended): `get_header`, `get_required`, `get_validator` and
`get_class_validator` are total with respect to absence at every level
(whole document, `classes` mapping, class entry, field entry), returning
their unset result; `get_validator_list` returns the empty list on the
falsy empty document but raises `KeyError` on a non-empty document whose
`classes` mapping is absent. -/
theorem override_accessor_absence (cn p : String) :
    (Override.get_header none = "" ∧ Override.get_required none cn p = none
      ∧ Override.get_validator none cn p = none
      ∧ Override.get_class_validator none cn = none
      ∧ Override.get_validator_list none = .ok [])
    ∧ (∀ d : OverrideDoc, d.header = none → Override.get_header (some d) = "")
    ∧ (∀ d : OverrideDoc, d.classes = none →
        Override.get_required (some d) cn p = none
        ∧ Override.get_validator (some d) cn p = none
        ∧ Override.get_class_validator (some d) cn = none
        ∧ Override.get_validator_list (some d) = .error "KeyError: classes")
    ∧ (∀ d cs, d.classes = some cs → dictGet cn cs = none →
        Override.get_required (some d) cn p = none
        ∧ Override.get_validator (some d) cn p = none
        ∧ Override.get_class_validator (some d) cn = none)
    ∧ (∀ d cs ce, d.classes = some cs → dictGet cn cs = some ce →
        dictGet p ce.fields = none →
        Override.get_required (some d) cn p = none
        ∧ Override.get_validator (some d) cn p = none) := by
  refine ⟨⟨rfl, rfl, rfl, rfl, rfl⟩, ?_, ?_, ?_, ?_⟩
  · intro d h
    simp [Override.get_header, h]
  · intro d h
    refine ⟨?_, ?_, ?_, ?_⟩ <;>
      simp [Override.get_required, Override.get_validator,
        Override.get_class_validator, Override.get_validator_list, h]
  · intro d cs h1 h2
    refine ⟨?_, ?_, ?_⟩ <;>
      simp [Override.get_required, Override.get_validator,
        Override.get_class_validator, h1, h2]
  · intro d cs ce h1 h2 h3
    refine ⟨?_, ?_⟩ <;>
      simp [Override.get_required, Override.get_validator, h1, h2, h3]

/-- Witness for C7's amended claim at the concrete header-only document. -/
theorem override_accessor_absence_w :
    Override.get_required (some doc7) "Baz" "Y" = none
    ∧ Override.get_validator_list (some doc7) = .error "KeyError: classes" :=
  ⟨((override_accessor_absence "Baz" "Y").2.2.1 doc7 rfl).1,
   ((override_accessor_absence "Baz" "Y").2.2.1 doc7 rfl).2.2.2⟩

/-- C8 counterexample: rendering a class whose field `B` is malformed does
fail with a `KeyError`, but only after the class header and the line of the
earlier field `A` were already printed — partial rendering is emitted
before the failure. -/
theorem malformed_partial_output_counterexample :
    (output_class "C" props8 none none).2 = some (.keyError "Type")
    ∧ (output_class "C" props8 none none).1 =
      ["", "", "class C(AWSProperty):", "    props = \x7b",
       "        'A': (integer, True),"] :=
  ⟨rfl, rfl⟩

/-- A malformed descriptor makes `get_type` raise a `KeyError`. -/
theorem malformed_get_type (v : FieldDesc) (hmal : Malformed v) :
    ∃ e, get_type v = .error e := by
  obtain ⟨h1, h2 | ⟨h2, h3, h4⟩⟩ := hmal
  · exact ⟨.keyError "Type", by simp [get_type, h1, h2]⟩
  · exact ⟨.keyError "PrimitiveItemType", by simp [get_type, h1, h2, h3, h4]⟩

/-- A malformed field not named `Tags` makes its resolved type computation
raise, regardless of any validator override (the raise happens before the
override is consulted). -/
theorem malformed_resolved_error (o : Override) (cn key : String) (v : FieldDesc)
    (hkey : key ≠ "Tags") (hmal : Malformed v) :
    ∃ e, resolved_value_type o cn key v = .error e := by
  obtain ⟨e, he⟩ := malformed_get_type v hmal
  exact ⟨e, by simp [resolved_value_type, hkey, he]⟩

/-- The field loop fails whenever some field of the list is malformed and
not named `Tags`. -/
theorem output_fields_error (o : Override) (cn : String) :
    ∀ l : List (String × FieldDesc),
    (∃ kv ∈ l, kv.1 ≠ "Tags" ∧ Malformed kv.2) →
    ((output_fields o cn l).2).isSome = true := by
  intro l
  induction l with
  | nil => rintro ⟨kv, hmem, _⟩; simp at hmem
  | cons hd tl ih =>
    rintro ⟨kv, hmem, hkey, hmal⟩
    obtain ⟨key, value⟩ := hd
    rcases List.mem_cons.mp hmem with heq | htl
    · obtain ⟨e, he⟩ := malformed_resolved_error o cn key value
        (by simpa [heq] using hkey) (by simpa [heq] using hmal)
      simp [output_fields, he]
    · cases hr : resolved_value_type o cn key value with
      | error e => simp [output_fields, hr]
      | ok vt =>
        have := ih ⟨kv, htl, hkey, hmal⟩
        simp [output_fields, hr, this]

/-- C8 (amended): a malformed field descriptor on a field not named `Tags`
makes `output_class` fail with an error (which aborts the compilation run),
but the class header and opening of the `props` table — and the lines of
fields sorted before the malformed one — are already emitted when the
failure occurs, rather than no partial rendering being emitted. -/
theorem malformed_field_fails (class_name : String) (props : Props) (o : Override)
    (rn : Option String) (key : String) (value : FieldDesc)
    (hmem : (key, value) ∈ props) (hkey : key ≠ "Tags") (hmal : Malformed value) :
    (output_class class_name props o rn).2.isSome = true
    ∧ ∃ rest, (output_class class_name props o rn).1 =
        class_header class_name o rn ++ "    props = \x7b" :: rest := by
  have hmem' : (key, value) ∈ sortByKey props := by
    simpa [sortByKey, List.mem_insertionSort] using hmem
  have herr := output_fields_error o class_name (sortByKey props)
    ⟨(key, value), hmem', hkey, hmal⟩
  unfold output_class
  cases hof : output_fields o class_name (sortByKey props) with
  | mk ls e =>
    cases e with
    | none => rw [hof] at herr; simp at herr
    | some e' => exact ⟨rfl, ls, by simp⟩

/-- Witness for C8's amended claim at the concrete malformed table. -/
theorem malformed_field_fails_w :
    (output_class "C" props8 none none).2.isSome = true
    ∧ ∃ rest, (output_class "C" props8 none none).1 =
        class_header "C" none none ++ "    props = \x7b" :: rest :=
  malformed_field_fails "C" props8 none none "B" emptyField
    (by simp [props8]) (by decide) (by constructor <;> simp [emptyField])

/-- C6: a field named `Tags` with no validator override resolves to the
fixed external type `Tags`; with an override it resolves to the override
validator; and the tag import line is emitted exactly when some class of
the grouping (resource or property) has a `Tags` field with no validator
override. -/
theorem tags_special_case (o : Override) (class_name : String) (value : FieldDesc)
    (f : File) :
    (Override.get_validator o class_name "Tags" = none →
      resolved_value_type o class_name "Tags" value = .ok "Tags")
    ∧ (∀ v, Override.get_validator o class_name "Tags" = some v →
      resolved_value_type o class_name "Tags" value = .ok v)
    ∧ (File.output_tags f = true ↔
      ∃ cn ps fd, ((cn, ps) ∈ f.resources ∨ (cn, ps) ∈ f.properties)
        ∧ ("Tags", fd) ∈ ps ∧ Override.get_validator f.override cn "Tags" = none) := by
  refine ⟨?_, ?_, ?_⟩
  · intro h
    simp [resolved_value_type, h]
  · intro v h
    simp [resolved_value_type, h]
  · unfold File.output_tags has_bare_tags
    simp only [Bool.or_eq_true, List.any_eq_true, Bool.and_eq_true, decide_eq_true_eq,
      Option.isNone_iff_eq_none, sortByKey, List.mem_insertionSort]
    constructor
    · rintro (⟨cp, hcp, kv, hkv, hname, hval⟩ | ⟨cp, hcp, kv, hkv, hname, hval⟩)
      · refine ⟨cp.1, cp.2, kv.2, Or.inl hcp, ?_, ?_⟩
        · have hkv2 : ("Tags", kv.2) = kv := by
            obtain ⟨a, b⟩ := kv
            simp only at hname
            rw [hname]
          rw [hkv2]; exact hkv
        · rw [← hname]; exact hval
      · refine ⟨cp.1, cp.2, kv.2, Or.inr hcp, ?_, ?_⟩
        · have hkv2 : ("Tags", kv.2) = kv := by
            obtain ⟨a, b⟩ := kv
            simp only at hname
            rw [hname]
          rw [hkv2]; exact hkv
        · rw [← hname]; exact hval
    · rintro ⟨cn, ps, fd, hside | hside, hmem, hval⟩
      · exact Or.inl ⟨(cn, ps), hside, ("Tags", fd), hmem, rfl, hval⟩
      · exact Or.inr ⟨(cn, ps), hside, ("Tags", fd), hmem, rfl, hval⟩

/-- Witness for C6 at concrete inputs: a bare `Tags` field resolves to
`Tags` and triggers the import; an overridden one resolves to the override
validator. -/
theorem tags_special_case_w :
    resolved_value_type none "Baz" "Tags" (primField "String" false) = .ok "Tags"
    ∧ resolved_value_type (some docTags) "Baz" "Tags" (primField "String" false) =
        .ok "validate_tags"
    ∧ File.output_tags exTagFile = true :=
  ⟨(tags_special_case none "Baz" (primField "String" false) exTagFile).1 rfl,
   (tags_special_case (some docTags) "Baz" (primField "String" false) exTagFile).2.1
     "validate_tags" rfl,
   (tags_special_case none "Baz" (primField "String" false) exTagFile).2.2.mpr
     ⟨"Baz", tagProps, ⟨none, some "List", some "Tag", none, false⟩,
      Or.inl (by simp [exTagFile]), by simp [tagProps], rfl⟩⟩

/-- A successful dictionary lookup yields a binding of the list. -/
theorem dictGet_mem {α : Type _} (k : String) (v : α) :
    ∀ l : List (String × α), dictGet k l = some v → (k, v) ∈ l := by
  intro l
  induction l with
  | nil => intro h; simp [dictGet] at h
  | cons hd tl ih =>
    intro h
    obtain ⟨k', v'⟩ := hd
    by_cases hk : k' = k
    · subst hk
      simp [dictGet] at h
      subst h
      exact List.mem_cons_self _ _
    · simp [dictGet, hk] at h
      exact List.mem_cons_of_mem _ (ih h)

/-- What a successful child-building loop returns, given the behaviour of
the recursive builder on success: the children's names are exactly the
non-`Tag` names of the input list, in order, and each child's field table
comes from the property table. -/
theorem build_children_ok_spec (bt : String → Props → Except BErr Node)
    (tbl : PropTable)
    (hbt : ∀ p ps t, bt p ps = .ok t → t.name = p ∧ t.props = ps ∧ Built tbl t) :
    ∀ lst cs, build_children bt tbl lst = .ok cs →
      cs.map Node.name = lst.filter (fun x => x ≠ "Tag")
      ∧ ∀ c ∈ cs, dictGet c.name tbl = some c.props ∧ Built tbl c := by
  intro lst
  induction lst with
  | nil =>
    intro cs h
    simp only [build_children, Except.ok.injEq] at h
    subst h
    simp
  | cons p rest ih =>
    intro cs h
    by_cases hp : p = "Tag"
    · rw [build_children, if_pos hp] at h
      obtain ⟨h1, h2⟩ := ih cs h
      refine ⟨?_, h2⟩
      rw [h1]
      simp [hp]
    · rw [build_children, if_neg hp] at h
      cases hd : dictGet p tbl with
      | none => simp only [hd] at h; simp at h
      | some ps =>
        simp only [hd] at h
        cases hb : bt p ps with
        | error e => simp only [hb] at h; simp at h
        | ok child =>
          simp only [hb] at h
          cases hrest : build_children bt tbl rest with
          | error e => simp only [hrest] at h; simp at h
          | ok cs' =>
            simp only [hrest, Except.ok.injEq] at h
            subst h
            obtain ⟨hn, hpr, hB⟩ := hbt p ps child hb
            obtain ⟨h1, h2⟩ := ih cs' hrest
            constructor
            · have hfil : (p :: rest).filter (fun x => x ≠ "Tag") =
                  p :: rest.filter (fun x => x ≠ "Tag") := by simp [hp]
              rw [hfil, List.map_cons, hn, h1]
            · intro c hc
              rcases List.mem_cons.mp hc with rfl | hc'
              · exact ⟨by rw [hn, hpr]; exact hd, hB⟩
              · exact h2 c hc'

/-- Every non-`Tag` name of a successfully built child list was found in
the property table and built successfully. -/
theorem build_children_mem (bt : String → Props → Except BErr Node) (tbl : PropTable) :
    ∀ lst cs, build_children bt tbl lst = .ok cs →
      ∀ p ∈ lst, p ≠ "Tag" → ∃ ps, dictGet p tbl = some ps ∧ ∃ t, bt p ps = .ok t := by
  intro lst
  induction lst with
  | nil => intro cs h p hp; simp at hp
  | cons q rest ih =>
    intro cs h p hp hpt
    by_cases hq : q = "Tag"
    · rw [build_children, if_pos hq] at h
      rcases List.mem_cons.mp hp with rfl | hp'
      · exact absurd hq hpt
      · exact ih cs h p hp' hpt
    · rw [build_children, if_neg hq] at h
      cases hd : dictGet q tbl with
      | none => simp only [hd] at h; simp at h
      | some ps =>
        simp only [hd] at h
        cases hb : bt q ps with
        | error e => simp only [hb] at h; simp at h
        | ok child =>
          simp only [hb] at h
          cases hrest : build_children bt tbl rest with
          | error e => simp only [hrest] at h; simp at h
          | ok cs' =>
            rcases List.mem_cons.mp hp with rfl | hp'
            · exact ⟨ps, hd, child, hb⟩
            · exact ih cs' hrest p hp' hpt

/-- The child-building loop succeeds when every non-`Tag` name of the list
is present and builds successfully, and any property of the built children
follows. -/
theorem build_children_total (bt : String → Props → Except BErr Node) (tbl : PropTable)
    (Q : Node → Prop) :
    ∀ lst, (∀ p ∈ lst, p ≠ "Tag" →
        ∃ ps, dictGet p tbl = some ps ∧ ∃ t, bt p ps = .ok t ∧ Q t) →
      ∃ cs, build_children bt tbl lst = .ok cs ∧ ∀ c ∈ cs, Q c := by
  intro lst
  induction lst with
  | nil => intro _; exact ⟨[], rfl, by simp⟩
  | cons q rest ih =>
    intro hall
    obtain ⟨cs, hcs, hQ⟩ := ih (fun p hp hpt => hall p (List.mem_cons_of_mem _ hp) hpt)
    by_cases hq : q = "Tag"
    · refine ⟨cs, ?_, hQ⟩
      rw [build_children, if_pos hq]
      exact hcs
    · obtain ⟨ps, hd, t, hb, hQt⟩ := hall q (List.mem_cons_self _ _) hq
      refine ⟨t :: cs, ?_, ?_⟩
      · rw [build_children, if_neg hq]
        simp only [hd, hb, hcs]
      · intro c hc
        rcases List.mem_cons.mp hc with rfl | hc'
        · exact hQt
        · exact hQ c hc'

/-- A successful `build_tree` returns the requested node with a `Built`
dependency tree. -/
theorem build_tree_ok_spec :
    ∀ (fuel : Nat) (tbl : PropTable) (name : String) (props : Props)
      (rn : Option String) (t : Node),
    build_tree fuel tbl name props rn = .ok t →
    t.name = name ∧ t.props = props ∧ t.resource_name = rn ∧ Built tbl t := by
  intro fuel
  induction fuel with
  | zero => intro tbl name props rn t h; simp [build_tree] at h
  | succ f ih =>
    intro tbl name props rn t h
    rw [build_tree] at h
    cases hgtl : get_type_list props with
    | error e => simp only [hgtl] at h; simp at h
    | ok l =>
      simp only [hgtl] at h
      by_cases hemp : l.isEmpty
      · rw [if_pos hemp] at h
        simp only [Except.ok.injEq] at h
        subst h
        have hl : l = [] := by simpa using hemp
        refine ⟨rfl, rfl, rfl, ?_⟩
        exact Built.intro name props rn [] l hgtl (by simp [hl, sortStrings])
          (by simp) (by simp)
      · rw [if_neg hemp] at h
        cases hbc : build_children (fun p ps => build_tree f tbl p ps none) tbl
            (sortStrings l) with
        | error e => simp only [hbc] at h; simp at h
        | ok cs =>
          simp only [hbc, Except.ok.injEq] at h
          subst h
          have hbt : ∀ p ps t',
              (fun p ps => build_tree f tbl p ps none) p ps = .ok t' →
              t'.name = p ∧ t'.props = ps ∧ Built tbl t' := by
            intro p ps t' hb
            obtain ⟨h1, h2, _, h4⟩ := ih tbl p ps none t' hb
            exact ⟨h1, h2, h4⟩
          obtain ⟨hnames, hmem⟩ := build_children_ok_spec _ tbl hbt (sortStrings l) cs hbc
          exact ⟨rfl, rfl, rfl,
            Built.intro name props rn cs l hgtl hnames
              (fun c hc => (hmem c hc).1) (fun c hc => (hmem c hc).2)⟩

/-- Non-dependent inversion of `Built`. -/
theorem Built.props_spec (tbl : PropTable) (t : Node) (h : Built tbl t) :
    ∃ l, get_type_list t.props = .ok l
      ∧ t.children.map Node.name = (sortStrings l).filter (fun x => x ≠ "Tag")
      ∧ (∀ c ∈ t.children, dictGet c.name tbl = some c.props)
      ∧ (∀ c ∈ t.children, Built tbl c) := by
  cases h with
  | intro nm ps rn children l hl hnames hprops hrec =>
    exact ⟨l, hl, hnames, hprops, hrec⟩

/-- Invariants of the emission walk: the `seen` record always lists exactly
the emitted names; it never shrinks and stays duplicate-free; the emitted
list is dependency-safe for `Built` trees; and every walked tree's root
name ends up in `seen`. -/
theorem output_trees_spec (tbl : PropTable) :
    ∀ (fuel : Nat) (ts : List Node) (s s' : OutSt),
    output_trees fuel ts s = some s' →
    (∀ t ∈ ts, Built tbl t) →
    s.seen = s.out.map Entry.name → s.seen.Nodup → DepSafe s.out →
    s'.seen = s'.out.map Entry.name ∧ s'.seen.Nodup ∧ DepSafe s'.out
      ∧ (∃ d, s'.seen = s.seen ++ d) ∧ (∀ t ∈ ts, t.name ∈ s'.seen) := by
  intro fuel
  induction fuel with
  | zero => intro ts s s' h; simp [output_trees] at h
  | succ f ih =>
    intro ts s s' h hB hinv hnd hds
    cases ts with
    | nil =>
      simp only [output_trees, Option.some.injEq] at h
      subst h
      exact ⟨hinv, hnd, hds, ⟨[], by simp⟩, by simp⟩
    | cons t rest =>
      rw [output_trees] at h
      cases h1 : output_trees f t.children s with
      | none => simp only [h1] at h; simp at h
      | some s1 =>
        simp only [h1] at h
        have hBt := hB t (List.mem_cons_self _ _)
        obtain ⟨l0, hl0, hnames, hprops, hrec⟩ := Built.props_spec tbl t hBt
        obtain ⟨hinv1, hnd1, hds1, ⟨d1, hext1⟩, hmemc⟩ :=
          ih t.children s s1 h1 hrec hinv hnd hds
        by_cases hseen : t.name ∈ s1.seen
        · rw [if_pos hseen] at h
          obtain ⟨hinv2, hnd2, hds2, ⟨d2, hext2⟩, hmemr⟩ :=
            ih rest s1 s' h (fun t' ht' => hB t' (List.mem_cons_of_mem _ ht'))
              hinv1 hnd1 hds1
          refine ⟨hinv2, hnd2, hds2,
            ⟨d1 ++ d2, by rw [hext2, hext1, List.append_assoc]⟩, ?_⟩
          intro t' ht'
          rcases List.mem_cons.mp ht' with rfl | ht''
          · rw [hext2]; exact List.mem_append_left _ hseen
          · exact hmemr t' ht''
        · rw [if_neg hseen] at h
          have hinvs2 : (s1.seen ++ [t.name]) =
              ((s1.out ++ [⟨t.name, t.props, t.resource_name⟩] : List Entry).map
                Entry.name) := by
            simp [hinv1]
          have hnds2 : (s1.seen ++ [t.name]).Nodup := by
            simp [List.nodup_append, hnd1, hseen]
          have hdss2 : DepSafe (s1.out ++ [⟨t.name, t.props, t.resource_name⟩]) := by
            refine DepSafe.snoc _ _ hds1 ?_
            intro l r hl hr hrT
            change get_type_list t.props = Except.ok l at hl
            have hll : l = l0 := by
              have := hl.symm.trans hl0
              exact (Except.ok.inj this)
            subst hll
            have hrs : r ∈ sortStrings l := by
              simp only [sortStrings, List.mem_insertionSort]
              exact hr
            have hrf : r ∈ (sortStrings l).filter (fun x => x ≠ "Tag") :=
              List.mem_filter.mpr ⟨hrs, by simp [hrT]⟩
            rw [← hnames] at hrf
            obtain ⟨c, hc, hcname⟩ := List.mem_map.mp hrf
            have := hmemc c hc
            rw [hcname, hinv1] at this
            exact this
          obtain ⟨hinv2, hnd2, hds2, ⟨d2, hext2⟩, hmemr⟩ :=
            ih rest ⟨s1.seen ++ [t.name], s1.out ++ [⟨t.name, t.props, t.resource_name⟩]⟩
              s' h (fun t' ht' => hB t' (List.mem_cons_of_mem _ ht'))
              hinvs2 hnds2 hdss2
          refine ⟨hinv2, hnd2, hds2,
            ⟨d1 ++ [t.name] ++ d2, by
              rw [hext2]
              simp only [hext1, List.append_assoc]⟩, ?_⟩
          intro t' ht'
          rcases List.mem_cons.mp ht' with rfl | ht''
          · rw [hext2]
            refine List.mem_append_left _ ?_
            exact List.mem_append_right _ (by simp)
          · exact hmemr t' ht''

/-- Invariants of the root loop of `File.output`: the final emitted list is
duplicate-free and dependency-safe, and contains every processed root. -/
theorem output_resources_spec (f : File) (fuel : Nat) :
    ∀ (lst : List (String × Props)) (s s' : OutSt),
    output_resources f fuel lst s = .ok s' →
    s.seen = s.out.map Entry.name → s.seen.Nodup → DepSafe s.out →
    s'.seen = s'.out.map Entry.name ∧ s'.seen.Nodup ∧ DepSafe s'.out
      ∧ (∃ d, s'.seen = s.seen ++ d) ∧ (∀ p ∈ lst, p.1 ∈ s'.seen) := by
  intro lst
  induction lst with
  | nil =>
    intro s s' h hinv hnd hds
    simp only [output_resources, Except.ok.injEq] at h
    subst h
    exact ⟨hinv, hnd, hds, ⟨[], by simp⟩, by simp⟩
  | cons cp rest ih =>
    intro s s' h hinv hnd hds
    obtain ⟨cn, ps⟩ := cp
    rw [output_resources] at h
    cases hrn : dictGet cn f.resource_names with
    | none => simp only [hrn] at h; simp at h
    | some rname =>
      simp only [hrn] at h
      cases hbt : build_tree fuel f.properties cn ps (some rname) with
      | error e => simp only [hbt] at h; simp at h
      | ok t =>
        simp only [hbt] at h
        cases hot : output_trees fuel [t] s with
        | none => simp only [hot] at h; simp at h
        | some s2 =>
          simp only [hot] at h
          obtain ⟨hn, _, _, hBt⟩ := build_tree_ok_spec fuel f.properties cn ps (some rname) t hbt
          obtain ⟨hinv2, hnd2, hds2, ⟨d2, hext2⟩, hmem2⟩ :=
            output_trees_spec f.properties fuel [t] s s2 hot
              (by
                intro t' ht'
                rcases List.mem_cons.mp ht' with rfl | h'
                · exact hBt
                · simp at h') hinv hnd hds
          obtain ⟨hinv3, hnd3, hds3, ⟨d3, hext3⟩, hmem3⟩ := ih s2 s' h hinv2 hnd2 hds2
          refine ⟨hinv3, hnd3, hds3,
            ⟨d2 ++ d3, by rw [hext3, hext2, List.append_assoc]⟩, ?_⟩
          intro p hp
          rcases List.mem_cons.mp hp with rfl | hp'
          · have ht := hmem2 t (List.mem_cons_self _ _)
            rw [hn] at ht
            rw [hext3]
            exact List.mem_append_left _ ht
          · exact hmem3 p hp'

/-- Every decomposition of a dependency-safe list has the referenced names
of the middle entry among the names before it. -/
theorem depsafe_decomp :
    ∀ out : List Entry, DepSafe out →
    ∀ l1 (e : Entry) l2, out = l1 ++ e :: l2 →
    ∀ l r, get_type_list e.props = .ok l → r ∈ l → r ≠ "Tag" →
    r ∈ l1.map Entry.name := by
  intro out h
  induction h with
  | nil =>
    intro l1 e l2 heq
    exact absurd heq (by simp)
  | snoc out e hout hdeps ih =>
    intro l1 e' l2 heq l r hl hr hrT
    rcases List.append_eq_append_iff.mp heq.symm with ⟨a, ha1, ha2⟩ | ⟨c, hc1, hc2⟩
    · cases a with
      | nil =>
        simp only [List.append_nil] at ha1
        obtain ⟨he, hl2⟩ := List.cons.inj ha2
        subst he
        rw [← ha1]
        exact hdeps l r hl hr hrT
      | cons y ys =>
        obtain ⟨he, hl2⟩ := List.cons.inj ha2
        subst he
        exact ih l1 e' ys ha1 l r hl hr hrT
    · cases c with
      | nil =>
        simp only [List.append_nil] at hc1
        obtain ⟨he, hl2⟩ := List.cons.inj hc2
        subst he
        rw [hc1]
        exact hdeps l r hl hr hrT
      | cons y ys =>
        obtain ⟨_, h2⟩ := List.cons.inj hc2
        exact absurd h2.symm (by simp)

/-- C1: dependency safety: in every successful grouping output, whenever an
emitted definition's field table references a non-primitive type `r` other
than `Tag`, a definition named `r` was emitted strictly before it. -/
theorem dependency_safety (f : File) (fuel : Nat) (out : List Entry)
    (h : f.output_classes fuel = .ok out) :
    ∀ l1 (e : Entry) l2, out = l1 ++ e :: l2 →
    ∀ l r, get_type_list e.props = .ok l → r ∈ l → r ≠ "Tag" →
    r ∈ l1.map Entry.name := by
  unfold File.output_classes at h
  cases hr : output_resources f fuel (sortByKey f.resources) ⟨[], []⟩ with
  | error e => rw [hr] at h; simp at h
  | ok s =>
    rw [hr] at h
    simp only [Except.ok.injEq] at h
    subst h
    obtain ⟨_, _, hds, _, _⟩ :=
      output_resources_spec f fuel (sortByKey f.resources) ⟨[], []⟩ s hr rfl
        (by simp) DepSafe.nil
    exact depsafe_decomp s.out hds

/-- Witness for C1: in the example grouping, `Bar` (referenced by `Baz`) is
emitted strictly before `Baz`. -/
theorem dependency_safety_w :
    "Bar" ∈ ([⟨"Bar", exBarProps, none⟩] : List Entry).map Entry.name :=
  dependency_safety exFile 3 exOut rfl [⟨"Bar", exBarProps, none⟩]
    ⟨"Baz", exBazProps, some "Foo::Baz"⟩ [] rfl ["Bar"] "Bar" rfl
    (by decide) (by decide)

/-- C2: at-most-once emission: in every successful grouping output the
emitted names are duplicate-free (each present name has count one), every
resource root appears, and every referenced non-`Tag` non-primitive name
appears, no matter how many roots reference it — the `seen` record is
shared across all roots of the grouping. -/
theorem at_most_once_emission (f : File) (fuel : Nat) (out : List Entry)
    (h : f.output_classes fuel = .ok out) :
    (out.map Entry.name).Nodup
    ∧ (∀ r ∈ out.map Entry.name, (out.map Entry.name).count r = 1)
    ∧ (∀ p ∈ f.resources, p.1 ∈ out.map Entry.name)
    ∧ (∀ e ∈ out, ∀ l r, get_type_list e.props = .ok l → r ∈ l → r ≠ "Tag" →
        r ∈ out.map Entry.name) := by
  unfold File.output_classes at h
  cases hr : output_resources f fuel (sortByKey f.resources) ⟨[], []⟩ with
  | error e => rw [hr] at h; simp at h
  | ok s =>
    rw [hr] at h
    simp only [Except.ok.injEq] at h
    subst h
    obtain ⟨hinv, hnd, hds, _, hmem⟩ :=
      output_resources_spec f fuel (sortByKey f.resources) ⟨[], []⟩ s hr rfl
        (by simp) DepSafe.nil
    have hnd' : (s.out.map Entry.name).Nodup := hinv ▸ hnd
    refine ⟨hnd', ?_, ?_, ?_⟩
    · intro r hrm
      exact List.count_eq_one_of_mem hnd' hrm
    · intro p hp
      have hp' : p ∈ sortByKey f.resources := by
        simp [sortByKey, List.mem_insertionSort, hp]
      have hpm := hmem p hp'
      rw [hinv] at hpm
      exact hpm
    · intro e he l r hl hr' hrT
      obtain ⟨l1, l2, hdecomp⟩ := List.append_of_mem he
      have hin := depsafe_decomp s.out hds l1 e l2 hdecomp l r hl hr' hrT
      rw [hdecomp]
      simp only [List.map_append, List.map_cons]
      exact List.mem_append_left _ hin

/-- Witness for C2 on the example grouping: emitted names are
duplicate-free and the root `Baz` is emitted. -/
theorem at_most_once_emission_w :
    (exOut.map Entry.name).Nodup ∧ "Baz" ∈ exOut.map Entry.name :=
  ⟨(at_most_once_emission exFile 3 exOut rfl).1,
   (at_most_once_emission exFile 3 exOut rfl).2.2.1 ("Baz", exBazProps)
     (by simp [exFile])⟩

/-- The key projection of a sorted dictionary is sorted. -/
theorem sortByKey_keys_sorted {α : Type _} (l : List (String × α)) :
    List.Sorted pyLe ((sortByKey l).map Prod.fst) := by
  have hs : List.Sorted pyKeyLe (sortByKey l) :=
    List.sorted_insertionSort pyKeyLe l
  exact List.pairwise_map.mpr hs

/-- A subtree of a `Built` tree is `Built`. -/
theorem built_subnode (tbl : PropTable) :
    ∀ n t : Node, SubNode n t → Built tbl t → Built tbl n := by
  intro n t h
  induction h with
  | refl => exact id
  | step c t' hsub hmem ih =>
    intro hB
    obtain ⟨l, _, _, _, hrec⟩ := Built.props_spec tbl t' hB
    exact ih (hrec c hmem)

/-- The children of any node of a `Built` tree are in ascending name
order. -/
theorem built_children_sorted (tbl : PropTable) (t : Node) (hB : Built tbl t) :
    List.Sorted pyLe (t.children.map Node.name) := by
  obtain ⟨l, _, hnames, _, _⟩ := Built.props_spec tbl t hB
  rw [hnames]
  have hs : List.Sorted pyLe (sortStrings l) := List.sorted_insertionSort pyLe l
  exact hs.filter _

/-- C9: determinism and ordering: equal inputs compile to identical output;
the resource roots are processed in ascending lexical name order; every
node of a built dependency tree lists its children in ascending referenced
type name order; and each definition's fields are rendered in ascending
field name order. -/
theorem deterministic_sorted_output (f g : File) (fuel : Nat) (tbl : PropTable)
    (name : String) (props : Props) (rn : Option String) (t : Node) :
    (f = g → f.output_classes fuel = g.output_classes fuel)
    ∧ List.Sorted pyLe ((sortByKey f.resources).map Prod.fst)
    ∧ (build_tree fuel tbl name props rn = .ok t →
        ∀ n, SubNode n t → List.Sorted pyLe (n.children.map Node.name))
    ∧ List.Sorted pyLe ((sortByKey props).map Prod.fst) := by
  refine ⟨?_, sortByKey_keys_sorted _, ?_, sortByKey_keys_sorted _⟩
  · intro h
    rw [h]
  · intro hb n hsn
    obtain ⟨_, _, _, hB⟩ := build_tree_ok_spec fuel tbl name props rn t hb
    exact built_children_sorted tbl n (built_subnode tbl n t hsn hB)

/-- Witness for C9 on the example grouping. -/
theorem deterministic_sorted_output_w :
    File.output_classes exFile 2 = File.output_classes exFile 2
    ∧ List.Sorted pyLe (exTree.children.map Node.name) :=
  ⟨(deterministic_sorted_output exFile exFile 2 [("Bar", exBarProps)] "Baz"
      exBazProps none exTree).1 rfl,
   (deterministic_sorted_output exFile exFile 2 [("Bar", exBarProps)] "Baz"
      exBazProps none exTree).2.2.1 rfl exTree (SubNode.refl _)⟩

/-- Whenever `build_tree` returns a tree, every name transitively reachable
from the root's field table is present in the property table. -/
theorem build_tree_ok_reaches (tbl : PropTable) :
    ∀ (props : Props) (r' : String), Reaches tbl props r' →
    ∀ (fuel : Nat) (name : String) (rn : Option String) (t : Node),
    build_tree fuel tbl name props rn = .ok t →
    ∃ ps, dictGet r' tbl = some ps := by
  intro props r' h
  induction h with
  | direct props l r hl hr hrT =>
    intro fuel name rn t hb
    cases fuel with
    | zero => simp [build_tree] at hb
    | succ f =>
      rw [build_tree] at hb
      simp only [hl] at hb
      by_cases hemp : l.isEmpty
      · have hl0 : l = [] := by simpa using hemp
        rw [hl0] at hr
        simp at hr
      · rw [if_neg hemp] at hb
        cases hbc : build_children (fun p ps => build_tree f tbl p ps none) tbl
            (sortStrings l) with
        | error e => simp only [hbc] at hb; simp at hb
        | ok cs =>
          obtain ⟨ps, hps, _⟩ := build_children_mem _ tbl (sortStrings l) cs hbc r
            (by simp [sortStrings, List.mem_insertionSort, hr]) hrT
          exact ⟨ps, hps⟩
  | step props l r ps r'' hl hr hrT hd hre ih =>
    intro fuel name rn t hb
    cases fuel with
    | zero => simp [build_tree] at hb
    | succ f =>
      rw [build_tree] at hb
      simp only [hl] at hb
      by_cases hemp : l.isEmpty
      · have hl0 : l = [] := by simpa using hemp
        rw [hl0] at hr
        simp at hr
      · rw [if_neg hemp] at hb
        cases hbc : build_children (fun p ps => build_tree f tbl p ps none) tbl
            (sortStrings l) with
        | error e => simp only [hbc] at hb; simp at hb
        | ok cs =>
          obtain ⟨ps', hps', t', hbt'⟩ := build_children_mem _ tbl (sortStrings l) cs hbc r
            (by simp [sortStrings, List.mem_insertionSort, hr]) hrT
          have hpp : ps' = ps := Option.some.inj (hps'.symm.trans hd)
          rw [hpp] at hbt'
          exact ih f r none t' hbt'

/-- Unpacking of a rank bound. -/
theorem refsBelowB_spec (tbl : PropTable) (rk : String → Nat) (props : Props) (b : Nat)
    (h : refsBelowB tbl rk props b = true) :
    ∃ l, get_type_list props = .ok l
      ∧ ∀ r ∈ l, r ≠ "Tag" → (∃ ps, dictGet r tbl = some ps) ∧ rk r < b := by
  unfold refsBelowB at h
  cases hg : get_type_list props with
  | error e =>
    simp only [hg] at h
    exact Bool.noConfusion h
  | ok l =>
    simp only [hg] at h
    refine ⟨l, rfl, ?_⟩
    intro r hrl hrT
    have hx := (List.all_eq_true.mp h) r hrl
    simp only [Bool.or_eq_true, Bool.and_eq_true, decide_eq_true_eq] at hx
    rcases hx with hT | ⟨hsome, hlt⟩
    · exact absurd hT hrT
    · exact ⟨Option.isSome_iff_exists.mp hsome, hlt⟩

/-- Every table entry of a ranked table satisfies its own rank bound. -/
theorem rankOkB_entry (tbl : PropTable) (rk : String → Nat)
    (h : rankOkB tbl rk = true) (p : String) (ps : Props) (hmem : (p, ps) ∈ tbl) :
    refsBelowB tbl rk ps (rk p) = true := by
  unfold rankOkB at h
  exact (List.all_eq_true.mp h) (p, ps) hmem

/-- Under a rank certificate (acyclic reference graph with all references
present), `build_tree` succeeds for sufficient fuel, and a node of the
returned tree is a leaf exactly when its field table has no non-`Tag`
non-primitive references. -/
theorem build_tree_rank_total (tbl : PropTable) (rk : String → Nat)
    (hrank : rankOkB tbl rk = true) :
    ∀ (fuel b : Nat) (name : String) (props : Props) (rn : Option String),
    refsBelowB tbl rk props b = true → b < fuel →
    ∃ t, build_tree fuel tbl name props rn = .ok t
      ∧ ∀ n, SubNode n t → ∃ l, get_type_list n.props = .ok l
          ∧ (n.children = [] ↔ l.filter (fun x => x ≠ "Tag") = []) := by
  intro fuel
  induction fuel using Nat.strong_induction_on with
  | _ fuel ih =>
    intro b name props rn hbelow hlt
    cases fuel with
    | zero => omega
    | succ f =>
      obtain ⟨l, hgtl, hrefs⟩ := refsBelowB_spec tbl rk props b hbelow
      by_cases hemp : l.isEmpty
      · have hl : l = [] := by simpa using hemp
        refine ⟨.node name props rn [], ?_, ?_⟩
        · rw [build_tree]
          simp only [hgtl]
          rw [if_pos hemp]
        · intro n hsn
          cases hsn with
          | refl => exact ⟨l, hgtl, by simp [Node.children, hl]⟩
          | step c t' hsub hcmem => simp [Node.children] at hcmem
      · have hall : ∀ p ∈ sortStrings l, p ≠ "Tag" →
            ∃ ps', dictGet p tbl = some ps' ∧
              ∃ t', build_tree f tbl p ps' none = .ok t' ∧
                (∀ n, SubNode n t' → ∃ l', get_type_list n.props = .ok l'
                  ∧ (n.children = [] ↔ l'.filter (fun x => x ≠ "Tag") = [])) := by
          intro p hpmem hpT
          have hpl : p ∈ l := by
            simpa [sortStrings, List.mem_insertionSort] using hpmem
          obtain ⟨⟨ps', hps'⟩, hrklt⟩ := hrefs p hpl hpT
          have hbelow' : refsBelowB tbl rk ps' (rk p) = true :=
            rankOkB_entry tbl rk hrank p ps' (dictGet_mem p ps' tbl hps')
          obtain ⟨t', hbt', hspec'⟩ :=
            ih f (by omega) (rk p) p ps' none hbelow' (by omega)
          exact ⟨ps', hps', t', hbt', hspec'⟩
        obtain ⟨cs, hcs, hQ⟩ :=
          build_children_total (fun p ps => build_tree f tbl p ps none) tbl _
            (sortStrings l) hall
        have hbt : ∀ p ps t',
            (fun p ps => build_tree f tbl p ps none) p ps = .ok t' →
            t'.name = p ∧ t'.props = ps ∧ Built tbl t' := by
          intro p ps t' hb
          obtain ⟨h1, h2, _, h4⟩ := build_tree_ok_spec f tbl p ps none t' hb
          exact ⟨h1, h2, h4⟩
        obtain ⟨hnames, _⟩ := build_children_ok_spec _ tbl hbt (sortStrings l) cs hcs
        refine ⟨.node name props rn cs, ?_, ?_⟩
        · rw [build_tree]
          simp only [hgtl]
          rw [if_neg hemp]
          simp only [hcs]
        · intro n hsn
          cases hsn with
          | refl =>
            refine ⟨l, hgtl, ?_⟩
            show cs = [] ↔ l.filter (fun x => x ≠ "Tag") = []
            have hperm : List.Perm ((sortStrings l).filter (fun x => x ≠ "Tag"))
                (l.filter (fun x => x ≠ "Tag")) :=
              (List.perm_insertionSort pyLe l).filter _
            constructor
            · intro hcs0
              rw [hcs0] at hnames
              have hsf : (sortStrings l).filter (fun x => x ≠ "Tag") = [] := hnames.symm
              have hlen := hperm.length_eq
              rw [hsf] at hlen
              exact List.length_eq_zero.mp hlen.symm
            · intro hfl
              have hlen := hperm.length_eq
              rw [hfl] at hlen
              have hsf : (sortStrings l).filter (fun x => x ≠ "Tag") = [] :=
                List.length_eq_zero.mp hlen
              rw [hsf] at hnames
              simpa using hnames
          | step c t' hsub hcmem =>
            have hc : c ∈ cs := by simpa [Node.children] using hcmem
            exact hQ c hc n hsub

/-- C10 (amended): if a name transitively reachable through non-`Tag`
non-primitive references is absent from the property table, `build_tree`
fails with an error at every recursion depth and never returns a tree;
and when additionally the reference graph is acyclic (witnessed by a rank
certificate), sufficient recursion depth returns a tree whose leaves are
exactly the definitions with no non-`Tag` non-primitive fields. -/
theorem build_tree_missing_and_total (tbl : PropTable) (props : Props)
    (rk : String → Nat) (name : String) (rn : Option String) :
    (∀ r', Reaches tbl props r' → dictGet r' tbl = none →
      ∀ fuel : Nat, ∃ e, build_tree fuel tbl name props rn = .error e)
    ∧ (rankOkB tbl rk = true →
      ∀ b fuel : Nat, refsBelowB tbl rk props b = true → b < fuel →
      ∃ t, build_tree fuel tbl name props rn = .ok t
        ∧ ∀ n, SubNode n t → ∃ l, get_type_list n.props = .ok l
            ∧ (n.children = [] ↔ l.filter (fun x => x ≠ "Tag") = [])) := by
  constructor
  · intro r' hre hnone fuel
    cases hb : build_tree fuel tbl name props rn with
    | error e => exact ⟨e, rfl⟩
    | ok t =>
      obtain ⟨ps, hps⟩ := build_tree_ok_reaches tbl props r' hre fuel name rn t hb
      rw [hnone] at hps
      simp at hps
  · intro hrank b fuel hbelow hlt
    exact build_tree_rank_total tbl rk hrank fuel b name props rn hbelow hlt

/-- Witness for C10's amended claim on the acyclic example. -/
theorem build_tree_missing_and_total_w :
    ∃ t, build_tree 2 [("Bar", exBarProps)] "Baz" exBazProps none = .ok t
      ∧ ∀ n, SubNode n t → ∃ l, get_type_list n.props = .ok l
          ∧ (n.children = [] ↔ l.filter (fun x => x ≠ "Tag") = []) :=
  (build_tree_missing_and_total [("Bar", exBarProps)] exBazProps exRank "Baz" none).2
    rfl 1 2 rfl (by decide)

/-- On the cyclic two-element table, building either root never returns a
tree at any recursion depth. -/
theorem cyc_never_ok : ∀ fuel : Nat,
    (∀ t, build_tree fuel cycTbl "A" cycA none ≠ .ok t)
    ∧ (∀ t, build_tree fuel cycTbl "B" cycB none ≠ .ok t) := by
  intro fuel
  induction fuel with
  | zero =>
    constructor <;> intro t h <;> simp [build_tree] at h
  | succ f ih =>
    constructor
    · intro t h
      cases hx : build_tree f cycTbl "B" cycB none with
      | ok t' => exact (ih.2 t') hx
      | error e =>
        rw [build_tree] at h
        simp only [show get_type_list cycA = Except.ok ["B"] from rfl] at h
        rw [if_neg (by decide)] at h
        simp only [show sortStrings ["B"] = ["B"] from rfl] at h
        rw [build_children, if_neg (by decide)] at h
        simp only [show dictGet "B" cycTbl = some cycB from rfl, hx] at h
        simp at h
    · intro t h
      cases hx : build_tree f cycTbl "A" cycA none with
      | ok t' => exact (ih.1 t') hx
      | error e =>
        rw [build_tree] at h
        simp only [show get_type_list cycB = Except.ok ["A"] from rfl] at h
        rw [if_neg (by decide)] at h
        simp only [show sortStrings ["A"] = ["A"] from rfl] at h
        rw [build_children, if_neg (by decide)] at h
        simp only [show dictGet "A" cycTbl = some cycA from rfl, hx] at h
        simp at h

/-- C10 counterexample: on the cyclic table every referenced non-`Tag` name
(of the root `A`'s field table and of every table entry) is present, yet
`build_tree` never returns a tree for root `A` at any recursion depth — the
Python recursion never terminates instead of returning a tree. -/
theorem build_tree_cycle_counterexample :
    allRefsPresent cycTbl cycA = true
    ∧ cycTbl.all (fun p => allRefsPresent cycTbl p.2) = true
    ∧ ¬ ∃ (fuel : Nat) (t : Node), build_tree fuel cycTbl "A" cycA none = .ok t := by
  refine ⟨rfl, rfl, ?_⟩
  rintro ⟨fuel, t, h⟩
  exact (cyc_never_ok fuel).1 t h
